import Mathlib

/-!
Verification of the Grover search example of `quest-rs`
(src/examples/grovers_search.rs).

The Rust example issues elementary gate calls (`pauli_x`, `hadamard`,
`multi_controlled_phase_flip`) against a QuEST-backed register.  We embed the
example shallowly:

* the gate calls a function issues are recorded as a `List Gate`, built with
  the same loop structure as the Rust code (`forLoopGates` models a `for`
  loop that appends gate calls);
* the numerical effect of a gate on the register's state vector is owned by
  the external backend and is modelled from the spec's capability contracts
  (`applyGate`);
* `main`'s observable behaviour (initialization, the Grover loop, the
  probability reads) is recorded as a `List Event` (`mainTrace`);
* the driver operations `validate` and `run` described by the spec do not
  appear in src/ and are modelled from the spec.
-/

namespace GroversSearch

/-- Amplitude vector of the simulated register: the complex amplitude of each
computational basis state.  Modelled from the spec: the state-vector
representation itself is owned by the external QuEST backend; the core only
observes basis-state amplitudes through the capability contract. -/
abbrev QState : Type := ℕ → ℂ

/-- The three elementary gate invocations the example issues against the
backend: `pauli_x`, `hadamard` and `multi_controlled_phase_flip`
(src/examples/grovers_search.rs, `applyOracle` and `applyDiffuser`). -/
inductive Gate where
  | pauli_x (q : ℕ)
  | hadamard (q : ℕ)
  | multi_controlled_phase_flip (ctrls : List ℕ)
  deriving DecidableEq

/-- The complex number √2, the Hadamard normalization. -/
noncomputable def sqrt2C : ℂ := ((Real.sqrt 2 : ℝ) : ℂ)

/-- Modelled from the spec: the numerical effect of each elementary gate on
the state vector is out of scope of src/ (it lives in the QuEST backend) and
is taken from the spec's capability contracts: `bit_flip` applies a NOT gate
to one qubit, `basis_change` a Hadamard gate, and
`multi_controlled_phase_flip` flips the sign of the basis state in which
every listed qubit is 1. -/
noncomputable def applyGate : Gate → QState → QState
  | Gate.pauli_x q, ψ => fun i => ψ (i ^^^ 2 ^ q)
  | Gate.hadamard q, ψ => fun i =>
      ((if i.testBit q then (-1 : ℂ) else 1) * ψ i + ψ (i ^^^ 2 ^ q)) / sqrt2C
  | Gate.multi_controlled_phase_flip ctrls, ψ => fun i =>
      if ctrls.all (fun q => i.testBit q) then -ψ i else ψ i

/-- Sequential application of a list of gate calls to the register state, in
issue order. -/
noncomputable def applyGates (gs : List Gate) (ψ : QState) : QState :=
  gs.foldl (fun φ g => applyGate g φ) ψ

/-- The Rust expression `(sol_elem >> q) & 1` on `i32` (arithmetic shift
right, then mask the low bit): floor division by `2 ^ q` followed by
`mod 2`. -/
def rustBit (key : ℤ) (q : ℕ) : ℤ := Int.fdiv key (2 ^ q) % 2

/-- A `for q in 0..n` loop whose body appends the gate calls `body q`, in
loop order. -/
def forLoopGates (n : ℕ) (body : ℕ → List Gate) : List Gate :=
  (List.range n).foldl (fun acc q => acc ++ body q) []

/-- Gate calls issued by `applyOracle(qureg, num_qubits, sol_elem)`
(src/examples/grovers_search.rs:121-140): a pass of `pauli_x(q)` for every
qubit `q` whose bit of `sol_elem` is 0, one
`multi_controlled_phase_flip((0..num_qubits).collect())`, then the same
`pauli_x` pass again. -/
def oracleGates (num_qubits : ℕ) (sol_elem : ℤ) : List Gate :=
  forLoopGates num_qubits
      (fun q => if rustBit sol_elem q = 0 then [Gate.pauli_x q] else [])
    ++ [Gate.multi_controlled_phase_flip (List.range num_qubits)]
    ++ forLoopGates num_qubits
      (fun q => if rustBit sol_elem q = 0 then [Gate.pauli_x q] else [])

/-- Effect of `applyOracle` on the register state: its gate calls, applied in
order. -/
noncomputable def applyOracle (num_qubits : ℕ) (sol_elem : ℤ) (ψ : QState) :
    QState :=
  applyGates (oracleGates num_qubits sol_elem) ψ

/-- Gate calls issued by `applyDiffuser(qureg, num_qubits)`
(src/examples/grovers_search.rs:151-176): `hadamard(q)` for every qubit,
`pauli_x(q)` for every qubit, one `multi_controlled_phase_flip` on all
qubits, `pauli_x(q)` for every qubit, `hadamard(q)` for every qubit. -/
def diffuserGates (num_qubits : ℕ) : List Gate :=
  forLoopGates num_qubits (fun q => [Gate.hadamard q])
    ++ forLoopGates num_qubits (fun q => [Gate.pauli_x q])
    ++ [Gate.multi_controlled_phase_flip (List.range num_qubits)]
    ++ forLoopGates num_qubits (fun q => [Gate.pauli_x q])
    ++ forLoopGates num_qubits (fun q => [Gate.hadamard q])

/-- Effect of `applyDiffuser` on the register state: its gate calls, applied
in order. -/
noncomputable def applyDiffuser (num_qubits : ℕ) (ψ : QState) : QState :=
  applyGates (diffuserGates num_qubits) ψ

/-- Observable backend interactions of `main`
(src/examples/grovers_search.rs:240-271): the `init_plus_state` call, each
gate call, and each `probability_amplitude` read (with the basis index it
reads). -/
inductive Event where
  | init_plus_state : Event
  | gate : Gate → Event
  | probability_read : ℤ → Event
  deriving DecidableEq

/-- Whether an event is a probability read. -/
def isProbRead : Event → Bool
  | Event.probability_read _ => true
  | _ => false

/-- The basis indices read by the probability reads of a trace, in order. -/
def probReadKeys (t : List Event) : List ℤ :=
  t.filterMap fun e =>
    match e with
    | Event.probability_read k => some k
    | _ => none

/-- Backend interactions of one iteration of `main`'s Grover loop
(src/examples/grovers_search.rs:267-271): the oracle's gate calls, the
diffuser's gate calls, then one probability read of `sol_elem`. -/
def groverIterTrace (num_qubits : ℕ) (sol_elem : ℤ) : List Event :=
  (oracleGates num_qubits sol_elem).map Event.gate
    ++ (diffuserGates num_qubits).map Event.gate
    ++ [Event.probability_read sol_elem]

/-- Backend interactions of `main`'s `for r in 0..num_reps` loop: `reps`
repetitions of one Grover iteration, in order. -/
def groverLoopTrace (num_qubits : ℕ) (sol_elem : ℤ) (reps : ℕ) :
    List Event :=
  (List.range reps).foldl (fun acc _ => acc ++ groverIterTrace num_qubits sol_elem) []

/-- Backend interactions of `main` (src/examples/grovers_search.rs:240-271):
one `init_plus_state`, then the Grover loop. -/
def mainTrace (num_qubits : ℕ) (sol_elem : ℤ) (reps : ℕ) : List Event :=
  Event.init_plus_state :: groverLoopTrace num_qubits sol_elem reps

/-- The repetition count `main` computes
(src/examples/grovers_search.rs:244-245):
`f64::ceil(PI / 4.0 * (num_elems as QReal).sqrt()) as usize` with
`num_elems = 1 << num_qubits`, i.e. the ceiling of `π/4 · √(2^num_qubits)`.
The real value `π/4 · √(2^num_qubits)` is at distance ≥ 0.1 from every
integer at the arguments considered below, so `f64` rounding cannot change
the ceiling and the exact real-number model is faithful. -/
noncomputable def iteration_count (num_qubits : ℕ) : ℕ :=
  ⌈Real.pi / 4 * Real.sqrt ((2 : ℝ) ^ num_qubits)⌉₊

/-- `const num_qubits: i32 = 15` (src/examples/grovers_search.rs:243). -/
def num_qubits : ℕ := 15

/-- `let num_elems = 1 << num_qubits` (src/examples/grovers_search.rs:244). -/
def num_elems : ℤ := 2 ^ num_qubits

/-- `let sol_elem = 3253523 % num_elems` (src/examples/grovers_search.rs:258). -/
def sol_elem : ℤ := 3253523 % num_elems

/-- The single error kind of the Grover driver.  Modelled from the spec:
src/ contains no validation code; the spec's error taxonomy has the single
checked kind `KeyOutOfBound`. -/
inductive GroverError where
  | KeyOutOfBound : GroverError
  deriving DecidableEq

/-- Modelled from the spec: the driver operation
`validate(num_qubits, key)` is not present in src/ (which holds only the
example `main`); per the spec it succeeds iff `0 ≤ key < 2^num_qubits` and
fails with `KeyOutOfBound` otherwise. -/
def validate (num_qubits : ℕ) (key : ℤ) : Except GroverError Unit :=
  if 0 ≤ key ∧ key < 2 ^ num_qubits then Except.ok ()
  else Except.error GroverError.KeyOutOfBound

/-- Modelled from the spec: the backend capability `init_superposition`
(`init_plus_state` in the Rust example) sets the register to the uniform
superposition: amplitude `1/√(2^num_qubits)` on every basis state of the key
space. -/
noncomputable def init_superposition (num_qubits : ℕ) : QState :=
  fun i =>
    if i < 2 ^ num_qubits then ((Real.sqrt ((2 : ℝ) ^ num_qubits) : ℝ) : ℂ)⁻¹
    else 0

/-- The backend capability `probability(register, basis_index)` /
`probability_amplitude` in the Rust binding: the squared magnitude of the
amplitude of the given basis state. -/
noncomputable def probability_amplitude (ψ : QState) (k : ℤ) : ℝ :=
  Complex.abs (ψ k.toNat) ^ 2

/-- The amplification loop: `reps` repetitions of oracle then diffuser. -/
noncomputable def groverLoop (num_qubits : ℕ) (key : ℤ) (reps : ℕ)
    (ψ : QState) : QState :=
  (List.range reps).foldl
    (fun φ _ => applyDiffuser num_qubits (applyOracle num_qubits key φ)) ψ

/-- Modelled from the spec: the driver operation `run(register, key)` is not
present in src/; per the spec it validates the key first (propagating
`KeyOutOfBound` with no further action), then initializes the uniform
superposition, runs `iteration_count` Grover iterations, and reads the
probability of basis state `key` once at the end.  The first component of
the result is the register state after the call. -/
noncomputable def run (num_qubits : ℕ) (key : ℤ) (ψ : QState) :
    QState × Except GroverError ℝ :=
  match validate num_qubits key with
  | Except.error e => (ψ, Except.error e)
  | Except.ok _ =>
      let φ := groverLoop num_qubits key (iteration_count num_qubits)
        (init_superposition num_qubits)
      (φ, Except.ok (probability_amplitude φ key))

/-- The basis-state mask toggled by a list of `pauli_x` gates: the xor of
`2 ^ q` over the listed qubits. -/
def maskOf (l : List ℕ) : ℕ := l.foldr (fun q m => 2 ^ q ^^^ m) 0

/-- Well-formedness of a single gate call against an `n`-qubit register:
single-qubit gates name a qubit below `n`; the multi-controlled phase flip
lists exactly all register qubits. -/
def gateWellFormed (n : ℕ) : Gate → Prop
  | Gate.pauli_x q => q < n
  | Gate.hadamard q => q < n
  | Gate.multi_controlled_phase_flip ctrls => ctrls = List.range n

/-- Two gates commute as state transformations. -/
def GateCommute (g g' : Gate) : Prop :=
  ∀ ψ, applyGate g (applyGate g' ψ) = applyGate g' (applyGate g ψ)

/- ### Helper lemmas -/

lemma applyGates_cons (g : Gate) (gs : List Gate) (ψ : QState) :
    applyGates (g :: gs) ψ = applyGates gs (applyGate g ψ) := rfl

lemma applyGates_append (gs hs : List Gate) (ψ : QState) :
    applyGates (gs ++ hs) ψ = applyGates hs (applyGates gs ψ) := by
  unfold applyGates
  exact List.foldl_append ..

lemma applyGates_singleton (g : Gate) (ψ : QState) :
    applyGates [g] ψ = applyGate g ψ := rfl

lemma forLoopGates_succ (n : ℕ) (body : ℕ → List Gate) :
    forLoopGates (n + 1) body = forLoopGates n body ++ body n := by
  unfold forLoopGates
  rw [List.range_succ, List.foldl_append]
  rfl

lemma forLoopGates_map (n : ℕ) (f : ℕ → Gate) :
    forLoopGates n (fun q => [f q]) = (List.range n).map f := by
  induction n with
  | zero => rfl
  | succ k ih => rw [forLoopGates_succ, ih, List.range_succ, List.map_append]; rfl

lemma forLoopGates_filter (n : ℕ) (c : ℕ → Bool) (f : ℕ → Gate) :
    forLoopGates n (fun q => if c q then [f q] else []) =
      ((List.range n).filter c).map f := by
  induction n with
  | zero => rfl
  | succ k ih =>
      rw [forLoopGates_succ, ih, List.range_succ, List.filter_append,
        List.map_append]
      rcases h : c k <;> simp [h, List.filter]

/-- The Rust bit test `(key >> q) & 1` agrees with the two's-complement bit
`Int.testBit`. -/
lemma rustBit_eq_testBit (key : ℤ) (q : ℕ) :
    rustBit key q = if key.testBit q then 1 else 0 := by
  unfold rustBit
  have hb : (0 : ℤ) < 2 ^ q := by positivity
  rw [Int.fdiv_eq_ediv _ (le_of_lt hb)]
  have hc : ((2 : ℤ) ^ q) = ((2 ^ q : ℕ) : ℤ) := by push_cast; ring
  cases key with
  | ofNat m =>
      rw [hc, Int.ofNat_eq_natCast, ← Int.natCast_div]
      have ht : Int.testBit (Int.ofNat m) q = Nat.testBit m q := rfl
      rw [Int.ofNat_eq_natCast] at ht
      rw [ht, Nat.testBit_to_div_mod]
      generalize m / 2 ^ q = a
      rcases Nat.mod_two_eq_zero_or_one a with h | h <;> simp [h] <;> omega
  | negSucc m =>
      rw [hc, Int.negSucc_ediv _ (by exact_mod_cast hb)]
      have ht : Int.testBit (Int.negSucc m) q = !(Nat.testBit m q) := rfl
      rw [ht, Nat.testBit_to_div_mod]
      have he : Int.ediv (↑m) (↑(2 ^ q : ℕ)) = ((m / 2 ^ q : ℕ) : ℤ) := by
        rw [Int.natCast_div]; rfl
      rw [he]
      generalize m / 2 ^ q = a
      rcases Nat.mod_two_eq_zero_or_one a with h | h <;> simp [h] <;> omega

/-- The conditional `pauli_x` pass of the oracle, rewritten as a filter over
the qubits whose key bit is 0. -/
lemma oracle_x_pass_eq (n : ℕ) (key : ℤ) :
    forLoopGates n (fun q => if rustBit key q = 0 then [Gate.pauli_x q] else [])
      = ((List.range n).filter (fun q => !(key.testBit q))).map Gate.pauli_x := by
  have hbody :
      (fun q => if rustBit key q = 0 then [Gate.pauli_x q] else [])
        = (fun q => if (!(key.testBit q)) then [Gate.pauli_x q] else []) := by
    funext q
    rcases h : key.testBit q <;> simp [rustBit_eq_testBit, h]
  rw [hbody, forLoopGates_filter]

lemma oracleGates_eq (n : ℕ) (key : ℤ) :
    oracleGates n key =
      ((List.range n).filter (fun q => !(key.testBit q))).map Gate.pauli_x
        ++ [Gate.multi_controlled_phase_flip (List.range n)]
        ++ ((List.range n).filter (fun q => !(key.testBit q))).map Gate.pauli_x := by
  unfold oracleGates
  rw [oracle_x_pass_eq]

lemma diffuserGates_eq (n : ℕ) :
    diffuserGates n =
      (List.range n).map Gate.hadamard
        ++ (List.range n).map Gate.pauli_x
        ++ [Gate.multi_controlled_phase_flip (List.range n)]
        ++ (List.range n).map Gate.pauli_x
        ++ (List.range n).map Gate.hadamard := by
  unfold diffuserGates
  rw [forLoopGates_map, forLoopGates_map]

/- ### Iteration-count values -/

lemma sqrt_two_lt : Real.sqrt 2 < 1.415 := by
  rw [show (1.415 : ℝ) = Real.sqrt (1.415 ^ 2) by rw [Real.sqrt_sq] <;> norm_num]
  apply Real.sqrt_lt_sqrt <;> norm_num

lemma sqrt_two_gt : (1.414 : ℝ) < Real.sqrt 2 := by
  rw [show (1.414 : ℝ) = Real.sqrt (1.414 ^ 2) by rw [Real.sqrt_sq] <;> norm_num]
  apply Real.sqrt_lt_sqrt <;> norm_num

lemma sqrt_num_elems_lt : Real.sqrt 32768 < 181.02 := by
  rw [show (181.02 : ℝ) = Real.sqrt (181.02 ^ 2) by rw [Real.sqrt_sq] <;> norm_num]
  apply Real.sqrt_lt_sqrt <;> norm_num

lemma sqrt_num_elems_gt : (181.01 : ℝ) < Real.sqrt 32768 := by
  rw [show (181.01 : ℝ) = Real.sqrt (181.01 ^ 2) by rw [Real.sqrt_sq] <;> norm_num]
  apply Real.sqrt_lt_sqrt <;> norm_num

lemma iteration_count_one : iteration_count 1 = 2 := by
  rw [iteration_count, Nat.ceil_eq_iff (by norm_num)]
  have h1 := Real.pi_gt_d6
  have h2 := Real.pi_lt_d6
  have h3 := sqrt_two_lt
  have h4 := sqrt_two_gt
  have h5 : Real.sqrt ((2 : ℝ) ^ 1) = Real.sqrt 2 := by norm_num
  constructor
  · rw [h5]; push_cast; nlinarith
  · rw [h5]; push_cast; nlinarith

lemma iteration_count_four : iteration_count 4 = 4 := by
  rw [iteration_count, Nat.ceil_eq_iff (by norm_num)]
  have h1 := Real.pi_gt_d6
  have h2 := Real.pi_lt_d6
  have h5 : Real.sqrt ((2 : ℝ) ^ 4) = 4 := by
    rw [show ((2 : ℝ) ^ 4 : ℝ) = 4 ^ 2 by norm_num, Real.sqrt_sq] <;> norm_num
  constructor
  · rw [h5]; push_cast; nlinarith
  · rw [h5]; push_cast; nlinarith

lemma iteration_count_fifteen : iteration_count 15 = 143 := by
  rw [iteration_count, Nat.ceil_eq_iff (by norm_num)]
  have h1 := Real.pi_gt_d6
  have h2 := Real.pi_lt_d6
  have h3 := sqrt_num_elems_lt
  have h4 := sqrt_num_elems_gt
  have h5 : Real.sqrt ((2 : ℝ) ^ 15) = Real.sqrt 32768 := by norm_num
  constructor
  · rw [h5]; push_cast; nlinarith
  · rw [h5]; push_cast; nlinarith

/- ### State-vector semantics lemmas -/

lemma sqrt2C_mul_self : sqrt2C * sqrt2C = 2 := by
  rw [sqrt2C, ← Complex.ofReal_mul, Real.mul_self_sqrt (by norm_num)]
  norm_num

lemma testBit_xor_pow_self (i q : ℕ) :
    (i ^^^ 2 ^ q).testBit q = !(i.testBit q) := by
  simp [Nat.testBit_xor, Nat.testBit_two_pow_self]

lemma testBit_xor_pow_of_ne (i q r : ℕ) (h : r ≠ q) :
    (i ^^^ 2 ^ r).testBit q = i.testBit q := by
  simp [Nat.testBit_xor, Nat.testBit_two_pow_of_ne h]

lemma xor_pow_cancel (i q : ℕ) : (i ^^^ 2 ^ q) ^^^ 2 ^ q = i := by
  rw [Nat.xor_assoc, Nat.xor_self, Nat.xor_zero]

lemma xor_maskOf_cancel (i M : ℕ) : (i ^^^ M) ^^^ M = i := by
  rw [Nat.xor_assoc, Nat.xor_self, Nat.xor_zero]

/-- A pass of `pauli_x` gates over the qubits of `l` toggles exactly the
bits of `maskOf l` in every basis index. -/
lemma applyGates_pauli_map (l : List ℕ) (ψ : QState) :
    applyGates (l.map Gate.pauli_x) ψ = fun i => ψ (i ^^^ maskOf l) := by
  induction l generalizing ψ with
  | nil => funext i; simp [applyGates, maskOf]
  | cons q t ih =>
      funext i
      show applyGates (t.map Gate.pauli_x) (applyGate (Gate.pauli_x q) ψ) i
        = ψ (i ^^^ maskOf (q :: t))
      rw [ih]
      show ψ ((i ^^^ maskOf t) ^^^ 2 ^ q) = ψ (i ^^^ (2 ^ q ^^^ maskOf t))
      rw [Nat.xor_assoc, Nat.xor_comm (maskOf t) (2 ^ q)]

/-- A multi-controlled phase flip conjugated by the same `pauli_x` pass on
both sides is a diagonal sign flip: it negates the amplitude of `i` exactly
when every control bit of `i ^^^ maskOf l` is 1, and moves no amplitude. -/
lemma applyGates_conj_diag (l ctrls : List ℕ) (ψ : QState) :
    applyGates
        (l.map Gate.pauli_x
          ++ [Gate.multi_controlled_phase_flip ctrls]
          ++ l.map Gate.pauli_x) ψ
      = fun i =>
          if ctrls.all (fun q => (i ^^^ maskOf l).testBit q) then -ψ i
          else ψ i := by
  funext i
  rw [applyGates_append, applyGates_append, applyGates_pauli_map,
    applyGates_pauli_map, applyGates_singleton]
  show applyGate (Gate.multi_controlled_phase_flip ctrls)
      (fun j => ψ (j ^^^ maskOf l)) (i ^^^ maskOf l) = _
  simp only [applyGate, xor_maskOf_cancel]

/-- Applying a diagonal sign flip twice restores the state. -/
lemma diag_twice (p : ℕ → Bool) (ψ : QState) :
    (fun i => if p i then
        -(fun j => if p j then -ψ j else ψ j) i
      else (fun j => if p j then -ψ j else ψ j) i)
      = ψ := by
  funext i
  rcases h : p i <;> simp [h]

/-- The Hadamard gate is its own inverse. -/
lemma hadamard_invol (q : ℕ) (ψ : QState) :
    applyGate (Gate.hadamard q) (applyGate (Gate.hadamard q) ψ) = ψ := by
  funext i
  simp only [applyGate]
  rw [testBit_xor_pow_self, xor_pow_cancel]
  rcases h : i.testBit q <;>
    simp only [h, Bool.not_true, Bool.not_false, Bool.false_eq_true, if_true,
      if_false, reduceIte] <;>
    rw [← mul_div_assoc, div_add_div_same, div_div, sqrt2C_mul_self] <;>
    ring

/-- Hadamard gates on distinct qubits commute. -/
lemma hadamard_comm (q r : ℕ) (hqr : q ≠ r) :
    GateCommute (Gate.hadamard q) (Gate.hadamard r) := by
  intro ψ
  funext i
  simp only [applyGate]
  rw [testBit_xor_pow_of_ne i q r (Ne.symm hqr),
    testBit_xor_pow_of_ne i r q hqr]
  have hx : (i ^^^ 2 ^ r) ^^^ 2 ^ q = (i ^^^ 2 ^ q) ^^^ 2 ^ r := by
    rw [Nat.xor_assoc, Nat.xor_comm (2 ^ r) (2 ^ q), ← Nat.xor_assoc]
  rw [hx]
  rcases h1 : i.testBit q <;> rcases h2 : i.testBit r <;>
    simp only [h1, h2, Bool.false_eq_true, if_true, if_false, reduceIte] <;>
    rw [← mul_div_assoc, ← mul_div_assoc, div_add_div_same, div_add_div_same] <;>
    ring_nf

/-- A gate commuting with every member of a gate list can be pulled through
the whole list. -/
lemma applyGate_comm_applyGates (g : Gate) (L : List Gate)
    (h : ∀ g' ∈ L, GateCommute g g') (ψ : QState) :
    applyGate g (applyGates L ψ) = applyGates L (applyGate g ψ) := by
  induction L generalizing ψ with
  | nil => rfl
  | cons g' t ih =>
      rw [applyGates_cons, applyGates_cons,
        ih (fun x hx => h x (List.mem_cons_of_mem _ hx)),
        h g' (List.mem_cons_self g' t) ψ]

/-- A list of pairwise-commuting, self-inverse gates applied twice restores
the state. -/
lemma applyGates_twice_id (L : List Gate)
    (hinv : ∀ g ∈ L, ∀ ψ, applyGate g (applyGate g ψ) = ψ)
    (hp : L.Pairwise GateCommute) (ψ : QState) :
    applyGates L (applyGates L ψ) = ψ := by
  induction L generalizing ψ with
  | nil => rfl
  | cons g t ih =>
      rcases List.pairwise_cons.mp hp with ⟨hg, hp'⟩
      rw [applyGates_cons, applyGates_cons,
        applyGate_comm_applyGates g t hg,
        hinv g (List.mem_cons_self g t) ψ]
      exact ih (fun x hx ψ' => hinv x (List.mem_cons_of_mem _ hx) ψ') hp' ψ

/-- The Hadamard pass over all qubits is self-inverse. -/
lemma hadamard_pass_twice (n : ℕ) (ψ : QState) :
    applyGates ((List.range n).map Gate.hadamard)
      (applyGates ((List.range n).map Gate.hadamard) ψ) = ψ := by
  apply applyGates_twice_id
  · intro g hg ψ'
    rcases List.mem_map.mp hg with ⟨q, _, rfl⟩
    exact hadamard_invol q ψ'
  · refine List.Pairwise.map Gate.hadamard ?_ (List.nodup_range n)
    intro a b hab
    exact hadamard_comm a b hab

/-- The oracle acts diagonally: it only flips signs of amplitudes. -/
lemma applyOracle_diag (n : ℕ) (key : ℤ) (ψ : QState) :
    applyOracle n key ψ
      = fun i =>
          if (List.range n).all (fun q =>
              (i ^^^ maskOf (((List.range n).filter
                (fun r => !(key.testBit r))))).testBit q)
          then -ψ i else ψ i := by
  unfold applyOracle
  rw [oracleGates_eq, applyGates_conj_diag]

/-- The `pauli_x`-conjugated phase flip of the diffuser, in the nested
application form, is a diagonal sign flip. -/
lemma mid_diag (n : ℕ) (ξ : QState) :
    applyGates ((List.range n).map Gate.pauli_x)
        (applyGates [Gate.multi_controlled_phase_flip (List.range n)]
          (applyGates ((List.range n).map Gate.pauli_x) ξ))
      = fun i =>
          if (List.range n).all (fun q => (i ^^^ maskOf (List.range n)).testBit q)
          then -ξ i else ξ i := by
  funext i
  simp only [applyGates_singleton, applyGates_pauli_map, applyGate,
    xor_maskOf_cancel]

/-- Applying the diffuser's central conjugated phase flip twice restores the
state. -/
lemma mid_twice (n : ℕ) (ξ : QState) :
    applyGates ((List.range n).map Gate.pauli_x)
        (applyGates [Gate.multi_controlled_phase_flip (List.range n)]
          (applyGates ((List.range n).map Gate.pauli_x)
            (applyGates ((List.range n).map Gate.pauli_x)
              (applyGates [Gate.multi_controlled_phase_flip (List.range n)]
                (applyGates ((List.range n).map Gate.pauli_x) ξ)))))
      = ξ := by
  rw [mid_diag, mid_diag]
  funext i
  rcases h : (List.range n).all
      (fun q => (i ^^^ maskOf (List.range n)).testBit q) <;>
    simp only [h, Bool.false_eq_true, reduceIte, neg_neg]

/-- The diffuser, split into its five passes. -/
lemma applyDiffuser_split (n : ℕ) (φ : QState) :
    applyDiffuser n φ
      = applyGates ((List.range n).map Gate.hadamard)
          (applyGates ((List.range n).map Gate.pauli_x)
            (applyGates [Gate.multi_controlled_phase_flip (List.range n)]
              (applyGates ((List.range n).map Gate.pauli_x)
                (applyGates ((List.range n).map Gate.hadamard) φ)))) := by
  unfold applyDiffuser
  rw [diffuserGates_eq]
  simp only [applyGates_append]

/- ### Trace lemmas -/

lemma groverLoopTrace_succ (n : ℕ) (key : ℤ) (r : ℕ) :
    groverLoopTrace n key (r + 1)
      = groverLoopTrace n key r ++ groverIterTrace n key := by
  unfold groverLoopTrace
  rw [List.range_succ, List.foldl_append]
  rfl

lemma groverLoopTrace_eq (n : ℕ) (key : ℤ) (r : ℕ) :
    groverLoopTrace n key r
      = (List.replicate r (groverIterTrace n key)).flatten := by
  induction r with
  | zero => rfl
  | succ k ih =>
      rw [groverLoopTrace_succ, ih, List.replicate_succ' k, List.flatten_append]
      simp

lemma countP_gate_map (l : List Gate) :
    (l.map Event.gate).countP isProbRead = 0 := by
  induction l with
  | nil => rfl
  | cons g t ih => simpa [List.countP_cons, isProbRead] using ih

lemma groverIterTrace_countP (n : ℕ) (key : ℤ) :
    (groverIterTrace n key).countP isProbRead = 1 := by
  unfold groverIterTrace
  rw [List.countP_append, List.countP_append, countP_gate_map, countP_gate_map]
  rfl

lemma groverLoopTrace_countP (n : ℕ) (key : ℤ) (r : ℕ) :
    (groverLoopTrace n key r).countP isProbRead = r := by
  induction r with
  | zero => rfl
  | succ k ih =>
      rw [groverLoopTrace_succ, List.countP_append, ih, groverIterTrace_countP]

lemma mainTrace_countP (n : ℕ) (key : ℤ) (r : ℕ) :
    (mainTrace n key r).countP isProbRead = r := by
  unfold mainTrace
  rw [List.countP_cons, groverLoopTrace_countP]
  rfl

lemma groverIterTrace_length (n : ℕ) (key : ℤ) :
    (groverIterTrace n key).length
      = (oracleGates n key).length + (diffuserGates n).length + 1 := by
  simp [groverIterTrace]
  omega

lemma groverLoopTrace_length (n : ℕ) (key : ℤ) (r : ℕ) :
    (groverLoopTrace n key r).length = r * (groverIterTrace n key).length := by
  induction r with
  | zero => simp [groverLoopTrace]
  | succ k ih =>
      rw [groverLoopTrace_succ, List.length_append, ih, Nat.succ_mul]

lemma mainTrace_length (n : ℕ) (key : ℤ) (r : ℕ) :
    (mainTrace n key r).length = 1 + r * (groverIterTrace n key).length := by
  unfold mainTrace
  rw [List.length_cons, groverLoopTrace_length]
  omega

lemma probReadKeys_append (t t' : List Event) :
    probReadKeys (t ++ t') = probReadKeys t ++ probReadKeys t' := by
  unfold probReadKeys
  exact List.filterMap_append t t' _

lemma probReadKeys_gate_map (l : List Gate) :
    probReadKeys (l.map Event.gate) = [] := by
  induction l with
  | nil => rfl
  | cons g t ih => simpa [probReadKeys, List.filterMap_cons] using ih

lemma probReadKeys_iter (n : ℕ) (key : ℤ) :
    probReadKeys (groverIterTrace n key) = [key] := by
  unfold groverIterTrace
  rw [probReadKeys_append, probReadKeys_append, probReadKeys_gate_map,
    probReadKeys_gate_map]
  rfl

lemma probReadKeys_loopTrace (n : ℕ) (key : ℤ) (r : ℕ) :
    probReadKeys (groverLoopTrace n key r) = List.replicate r key := by
  induction r with
  | zero => rfl
  | succ k ih =>
      rw [groverLoopTrace_succ, probReadKeys_append, ih, probReadKeys_iter,
        ← List.replicate_succ' k]

lemma probReadKeys_mainTrace (n : ℕ) (key : ℤ) (r : ℕ) :
    probReadKeys (mainTrace n key r) = List.replicate r key := by
  unfold mainTrace probReadKeys
  rw [List.filterMap_cons]
  exact probReadKeys_loopTrace n key r

lemma mainTrace_getLast (n : ℕ) (key : ℤ) (k : ℕ) :
    (mainTrace n key (k + 1)).getLast? = some (Event.probability_read key) := by
  have h : mainTrace n key (k + 1)
      = (Event.init_plus_state
          :: (groverLoopTrace n key k
            ++ ((oracleGates n key).map Event.gate
              ++ (diffuserGates n).map Event.gate)))
        ++ [Event.probability_read key] := by
    unfold mainTrace
    rw [groverLoopTrace_succ]
    unfold groverIterTrace
    simp [List.append_assoc]
  rw [h, List.getLast?_concat]

/- ### Claim theorems -/

/-- C1: for every key outside the key space (negative or at least
2^num_qubits), the spec-modelled driver rejects with `KeyOutOfBound` before
touching the register: `validate` errors, and `run` returns the error with
the register exactly in its pre-call state. -/
theorem grover_C1_out_of_bound_key_rejected (n : ℕ) (key : ℤ) (ψ : QState)
    (h : key < 0 ∨ (2 : ℤ) ^ n ≤ key) :
    validate n key = Except.error GroverError.KeyOutOfBound ∧
      run n key ψ = (ψ, Except.error GroverError.KeyOutOfBound) := by
  have hv : validate n key = Except.error GroverError.KeyOutOfBound := by
    unfold validate
    rw [if_neg]
    intro hcon
    rcases h with h | h
    · exact absurd hcon.1 (not_le.mpr h)
    · exact absurd hcon.2 (not_lt.mpr h)
  refine ⟨hv, ?_⟩
  unfold run
  rw [hv]

/-- Witness for C1 at num_qubits = 2, key = 4 (which is 2^2, out of bound),
with the all-zero amplitude vector as pre-call register state. -/
theorem grover_C1_witness :
    ((4 : ℤ) < 0 ∨ (2 : ℤ) ^ 2 ≤ 4) ∧
      (validate 2 4 = Except.error GroverError.KeyOutOfBound ∧
        run 2 4 (fun _ => 0)
          = ((fun _ => 0), Except.error GroverError.KeyOutOfBound)) :=
  ⟨Or.inr (by norm_num),
    grover_C1_out_of_bound_key_rejected 2 4 (fun _ => 0) (Or.inr (by norm_num))⟩

/-- C2 counterexample: in the program's run (num_qubits = 15, the program's
sol_elem, the program's repetition count), the trace contains 143
probability reads, not exactly one. -/
theorem grover_C2_counterexample :
    (mainTrace num_qubits sol_elem (iteration_count num_qubits)).countP
        isProbRead = 143
      ∧ (143 : ℕ) ≠ 1 := by
  constructor
  · rw [mainTrace_countP]
    show iteration_count 15 = 143
    exact iteration_count_fifteen
  · norm_num

/-- C2 amended: a run performs exactly one initialization to the uniform
superposition followed by `reps` repetitions of (oracle gate calls, diffuser
gate calls, one probability read of the key); the probability of the key is
thus read once per iteration — `reps` times in total, not once — and the
final event of the run (when at least one iteration occurs) is the last such
read, which is the reported result. -/
theorem grover_C2_amended (n : ℕ) (key : ℤ) (r : ℕ) :
    mainTrace n key r
        = Event.init_plus_state ::
            (List.replicate r
              ((oracleGates n key).map Event.gate
                ++ (diffuserGates n).map Event.gate
                ++ [Event.probability_read key])).flatten
      ∧ (mainTrace n key r).countP isProbRead = r
      ∧ (1 ≤ r →
          (mainTrace n key r).getLast? = some (Event.probability_read key)) := by
  refine ⟨?_, mainTrace_countP n key r, ?_⟩
  · show mainTrace n key r
      = Event.init_plus_state :: (List.replicate r (groverIterTrace n key)).flatten
    unfold mainTrace
    rw [groverLoopTrace_eq]
  · intro hr
    obtain ⟨k, rfl⟩ : ∃ k, r = k + 1 := ⟨r - 1, by omega⟩
    exact mainTrace_getLast n key k

/-- Witness for C2 amended at num_qubits = 1, key = 0, one repetition. -/
theorem grover_C2_witness :
    1 ≤ 1 ∧ (mainTrace 1 0 1).getLast? = some (Event.probability_read 0) :=
  ⟨le_refl 1, (grover_C2_amended 1 0 1).2.2 (le_refl 1)⟩

/-- C3 counterexample: the iteration-count formula of the program yields
neither 1 at num_qubits = 1 nor 142 at num_qubits = 15 (the program's
configuration): the exact values are 2 and 143. -/
theorem grover_C3_counterexample :
    iteration_count 1 ≠ 1 ∧ iteration_count 15 ≠ 142 :=
  ⟨by rw [iteration_count_one]; norm_num,
    by rw [iteration_count_fifteen]; norm_num⟩

/-- C3 amended: the iteration count is the ceiling of π/4 · √(2^num_qubits);
it yields 2 for num_qubits = 1, 4 for num_qubits = 4, and 143 for
num_qubits = 15 (the value the program uses). -/
theorem grover_C3_amended :
    iteration_count 1 = 2 ∧ iteration_count 4 = 4 ∧ iteration_count 15 = 143 :=
  ⟨iteration_count_one, iteration_count_four, iteration_count_fifteen⟩

/-- C4: for every num_qubits ≥ 1 and every key, the oracle emits exactly a
bit-flip on each qubit whose key bit is 0, one multi-controlled phase flip
over all qubits, and the identical bit-flip pass again — and nothing else. -/
theorem grover_C4_oracle_gate_sequence (n : ℕ) (key : ℤ) (hn : 1 ≤ n) :
    oracleGates n key =
      ((List.range n).filter (fun q => !(key.testBit q))).map Gate.pauli_x
        ++ [Gate.multi_controlled_phase_flip (List.range n)]
        ++ ((List.range n).filter (fun q => !(key.testBit q))).map Gate.pauli_x :=
  oracleGates_eq n key

/-- Witness for C4 at num_qubits = 3, key = 5. -/
theorem grover_C4_witness :
    1 ≤ 3 ∧ oracleGates 3 5 =
      ((List.range 3).filter (fun q => !((5 : ℤ).testBit q))).map Gate.pauli_x
        ++ [Gate.multi_controlled_phase_flip (List.range 3)]
        ++ ((List.range 3).filter (fun q => !((5 : ℤ).testBit q))).map Gate.pauli_x :=
  ⟨by norm_num, grover_C4_oracle_gate_sequence 3 5 (by norm_num)⟩

/-- C5: for every num_qubits ≥ 1, the diffuser emits exactly a Hadamard on
every qubit, a bit-flip on every qubit, one multi-controlled phase flip
over all qubits, a bit-flip on every qubit, and a Hadamard on every qubit,
in this symmetric order. -/
theorem grover_C5_diffuser_gate_sequence (n : ℕ) (hn : 1 ≤ n) :
    diffuserGates n =
      (List.range n).map Gate.hadamard
        ++ (List.range n).map Gate.pauli_x
        ++ [Gate.multi_controlled_phase_flip (List.range n)]
        ++ (List.range n).map Gate.pauli_x
        ++ (List.range n).map Gate.hadamard :=
  diffuserGates_eq n

/-- Witness for C5 at num_qubits = 2. -/
theorem grover_C5_witness :
    1 ≤ 2 ∧ diffuserGates 2 =
      (List.range 2).map Gate.hadamard
        ++ (List.range 2).map Gate.pauli_x
        ++ [Gate.multi_controlled_phase_flip (List.range 2)]
        ++ (List.range 2).map Gate.pauli_x
        ++ (List.range 2).map Gate.hadamard :=
  ⟨by norm_num, grover_C5_diffuser_gate_sequence 2 (by norm_num)⟩

/-- C6: the oracle is an involution — applying it twice, with the same key,
restores the register exactly (global phase 1), so the probability of every
basis state is unchanged by the double application. -/
theorem grover_C6_oracle_involution (n : ℕ) (key : ℤ) (ψ : QState) :
    applyOracle n key (applyOracle n key ψ) = ψ ∧
      ∀ k : ℤ,
        probability_amplitude (applyOracle n key (applyOracle n key ψ)) k
          = probability_amplitude ψ k := by
  have h : applyOracle n key (applyOracle n key ψ) = ψ := by
    funext i
    simp only [applyOracle_diag]
    rcases hb : (List.range n).all (fun q =>
        (i ^^^ maskOf (((List.range n).filter
          (fun r => !(key.testBit r))))).testBit q) <;>
      simp only [hb, Bool.false_eq_true, reduceIte, neg_neg]
  exact ⟨h, fun k => by rw [h]⟩

/-- C7: the diffuser is an involution — applying it twice restores the
register exactly (global phase 1), so the probability of every basis state
is unchanged by the double application. -/
theorem grover_C7_diffuser_involution (n : ℕ) (ψ : QState) :
    applyDiffuser n (applyDiffuser n ψ) = ψ ∧
      ∀ k : ℤ,
        probability_amplitude (applyDiffuser n (applyDiffuser n ψ)) k
          = probability_amplitude ψ k := by
  have h : applyDiffuser n (applyDiffuser n ψ) = ψ := by
    rw [applyDiffuser_split, applyDiffuser_split, hadamard_pass_twice,
      mid_twice, hadamard_pass_twice]
  exact ⟨h, fun k => by rw [h]⟩

/-- C8: the amplification loop of the program's run is bounded: it performs
exactly the pre-computed iteration count of Grover iterations (one
probability read each) and the whole trace has the corresponding finite
length. -/
theorem grover_C8_loop_is_bounded (n : ℕ) (key : ℤ) (hn : 1 ≤ n)
    (hk0 : 0 ≤ key) (hk1 : key < 2 ^ n) :
    (mainTrace n key (iteration_count n)).countP isProbRead
        = iteration_count n
      ∧ (mainTrace n key (iteration_count n)).length
          = 1 + iteration_count n *
              ((oracleGates n key).length + (diffuserGates n).length + 1) := by
  refine ⟨mainTrace_countP n key (iteration_count n), ?_⟩
  rw [mainTrace_length, groverIterTrace_length]

/-- Witness for C8 at num_qubits = 1, key = 0. -/
theorem grover_C8_witness :
    1 ≤ 1 ∧ (0 : ℤ) ≤ 0 ∧ (0 : ℤ) < 2 ^ 1 ∧
      ((mainTrace 1 0 (iteration_count 1)).countP isProbRead
          = iteration_count 1
        ∧ (mainTrace 1 0 (iteration_count 1)).length
            = 1 + iteration_count 1 *
                ((oracleGates 1 0).length + (diffuserGates 1).length + 1)) :=
  ⟨le_refl 1, le_refl 0, by norm_num,
    grover_C8_loop_is_bounded 1 0 (le_refl 1) (le_refl 0) (by norm_num)⟩

/-- C9: every single-qubit gate the oracle and the diffuser emit addresses a
qubit index below num_qubits, and every multi-controlled phase flip lists
exactly the full register, for every num_qubits ≥ 1 and every key. -/
theorem grover_C9_gate_indices_in_range (n : ℕ) (key : ℤ) (hn : 1 ≤ n) :
    (∀ g ∈ oracleGates n key, gateWellFormed n g) ∧
      (∀ g ∈ diffuserGates n, gateWellFormed n g) := by
  have hx : ∀ l : List ℕ, ∀ g ∈ (l.filter (fun q => !(key.testBit q))).map
      Gate.pauli_x, l = List.range n → gateWellFormed n g := by
    intro l g hg hl
    rcases List.mem_map.mp hg with ⟨q, hq, rfl⟩
    show q < n
    subst hl
    exact List.mem_range.mp (List.mem_filter.mp hq).1
  constructor
  · intro g hg
    rw [oracleGates_eq] at hg
    rcases List.mem_append.mp hg with hg' | hg'
    · rcases List.mem_append.mp hg' with hg'' | hg''
      · exact hx (List.range n) g hg'' rfl
      · rw [List.mem_singleton.mp hg'']
        show List.range n = List.range n
        rfl
    · exact hx (List.range n) g hg' rfl
  · intro g hg
    rw [diffuserGates_eq] at hg
    simp only [List.mem_append] at hg
    rcases hg with ((((hg | hg) | hg) | hg) | hg)
    · rcases List.mem_map.mp hg with ⟨q, hq, rfl⟩
      exact List.mem_range.mp hq
    · rcases List.mem_map.mp hg with ⟨q, hq, rfl⟩
      exact List.mem_range.mp hq
    · rw [List.mem_singleton.mp hg]
      show List.range n = List.range n
      rfl
    · rcases List.mem_map.mp hg with ⟨q, hq, rfl⟩
      exact List.mem_range.mp hq
    · rcases List.mem_map.mp hg with ⟨q, hq, rfl⟩
      exact List.mem_range.mp hq

/-- Witness for C9 at num_qubits = 2, key = 1. -/
theorem grover_C9_witness :
    1 ≤ 2 ∧ ((∀ g ∈ oracleGates 2 1, gateWellFormed 2 g) ∧
      (∀ g ∈ diffuserGates 2, gateWellFormed 2 g)) :=
  ⟨by norm_num, grover_C9_gate_indices_in_range 2 1 (by norm_num)⟩

/-- C10: the program's search key is 3253523 mod 2^15 = 9491, which lies in
the register's key space [0, 2^15), and every probability read the program
issues reads exactly this in-range key. -/
theorem grover_C10_key_in_range :
    sol_elem = 9491 ∧ 0 ≤ sol_elem ∧ sol_elem < num_elems ∧
      ∀ r : ℕ,
        probReadKeys (mainTrace num_qubits sol_elem r)
          = List.replicate r sol_elem := by
  refine ⟨by decide, by decide, by decide, ?_⟩
  intro r
  exact probReadKeys_mainTrace num_qubits sol_elem r

end GroversSearch
